import Mathlib

/-!
# The event log of `AsyncTest` (async_1.cpp)

Shallow embedding of `AsyncTest::Events` (the lock-guarded, append-only event
log) and of the asynchronous operations `get`, `post` and `get_parallel`,
together with the two test scenarios that chain tasks.

* Part 1 embeds the log: `Event`, `operator==`, `push`, `index`, `find`.
* Part 2 embeds the task primitives (`std::async`, `std::future::get`,
  `std::promise`) as a small interleaving semantics: every thread is a
  program of atomic actions, a schedule picks the thread that moves next.
* Part 3 transcribes `get`, `post`, `get_parallel` and the test scenarios.
-/

namespace AsyncTest

/-! ## Part 1: the event log -/

/-- `using Args = std::map<std::string, std::string>`, kept as an association
list of key/value pairs. -/
abbrev Args := List (String × String)

/-- `Args::at(key)`: the value stored under `key`; `std::out_of_range` when the
key is missing. -/
def Args.at (a : Args) (key : String) : Except String String :=
  match a.lookup key with
  | some v => .ok v
  | none => .error "out_of_range"

/-- `struct Event { std::string source; std::string message; Args arguments; }`.
An event built from two strings only has an empty argument map. -/
structure Event where
  source : String
  message : String
  arguments : Args := []
deriving DecidableEq, Repr

/-- `Event::operator==`: compares `source` and `message`, never `arguments`. -/
def Event.eq (a other : Event) : Bool :=
  a.source == other.source && a.message == other.message

/-- `Events::push`: `events.emplace_back(std::move(s))`. -/
def push (events : List Event) (s : Event) : List Event :=
  events ++ [s]

/-- `std::find(std::begin(events), std::end(events), e)`: the offset of the
iterator the linear scan stops at, the scan testing `*it == e` from the front.
The end iterator has offset `events.length`. -/
def stdFind : List Event → Event → Nat
  | [], _ => 0
  | x :: xs, e => if x.eq e then 0 else stdFind xs e + 1

/-- `Events::index`: `distance(begin, find(begin, end, e))`. The C++ result
type is `int`; the distance is never negative and is kept here as a natural
number (the conversion to `int` preserves the value for every log of fewer
than `2^31` events). -/
def index (events : List Event) (e : Event) : Nat :=
  stdFind events e

/-- `Events::find`: the element the scan stops at, or
`std::invalid_argument(e.message + ", " + e.source)` when the scan reaches
the end. -/
def find (events : List Event) (e : Event) : Except String Event :=
  let it := stdFind events e
  if h : it < events.length then .ok (events.get ⟨it, h⟩)
  else .error (e.message ++ ", " ++ e.source)

/-- An event with the same source and message as `e` is stored in the log. -/
def Stored (events : List Event) (e : Event) : Prop :=
  ∃ x ∈ events, x.source = e.source ∧ x.message = e.message

instance (events : List Event) (e : Event) : Decidable (Stored events e) := by
  unfold Stored
  infer_instance

/-! ## Part 2: tasks, futures and promises

A thread is a program of atomic actions in continuation-passing style: an
action that yields a value (a future handle, the value of a future) hands it
to the rest of the program. Every `push` holds the log's mutex for its whole
duration, and futures and promises synchronise by themselves, so an execution
is an interleaving of these actions. -/

/-- A future is named by the index of its shared state. -/
abbrev Handle := Nat

/-- The values that travel through futures in async_1.cpp: `void`, `int`,
`std::string`, `std::future<std::string>` and
`std::vector<std::future<std::string>>`. -/
inductive Val where
  | unit
  | int (n : Int)
  | str (s : String)
  | fut (h : Handle)
  | futs (hs : List Handle)
deriving DecidableEq, Repr

/-- The string carried by a `std::string` value. -/
def Val.toStr : Val → String
  | .str s => s
  | _ => ""

/-- The integer carried by an `int` value. -/
def Val.toInt : Val → Int
  | .int n => n
  | _ => 0

/-- The program of one thread.
* `ret v`: the thread function returns `v`, which makes its future ready;
* `push e k`: `events.push(e)`;
* `sleep k`: `std::this_thread::sleep_for(..)`, which only lets time pass;
* `async body k`: `std::async(std::launch::async, body)`, the new future's
  handle goes to `k`;
* `get h k`: `future.get()`, blocks until the future is ready and hands
  its value to `k`;
* `promise k`: `std::promise p; p.get_future()`, the handle of the future goes
  to `k`;
* `setValue h v k`: `p.set_value(v)` on the promise of future `h`. -/
inductive Prog where
  | ret (v : Val)
  | push (e : Event) (k : Prog)
  | sleep (k : Prog)
  | async (body : Prog) (k : Handle → Prog)
  | get (h : Handle) (k : Val → Prog)
  | promise (k : Handle → Prog)
  | setValue (h : Handle) (v : Val) (k : Prog)

/-- The shared state of a future: the thread that will produce the value is
still running, or the promise is not yet fulfilled, or the value is there. -/
inductive Cell where
  | running (p : Prog)
  | pending
  | ready (v : Val)

/-- The log and the shared states; thread `i` owns cell `i`, the main thread
is cell `0`. -/
structure State where
  events : List Event
  cells : List Cell

/-- One atomic action of thread `i`; `none` when the thread cannot move: it
has finished, it waits on a future that is not ready, or `i` is no thread. A
`set_value` on anything but an unfulfilled promise (an exception in C++) does
not move either. -/
def step (s : State) (i : Nat) : Option State :=
  match s.cells[i]? with
  | some (.running p) =>
    match p with
    | .ret v => some { s with cells := s.cells.set i (.ready v) }
    | .push e k => some { events := push s.events e, cells := s.cells.set i (.running k) }
    | .sleep k => some { s with cells := s.cells.set i (.running k) }
    | .async body k =>
      some { s with cells := s.cells.set i (.running (k s.cells.length)) ++ [.running body] }
    | .get h k =>
      match s.cells[h]? with
      | some (.ready v) => some { s with cells := s.cells.set i (.running (k v)) }
      | _ => none
    | .promise k =>
      some { s with cells := s.cells.set i (.running (k s.cells.length)) ++ [.pending] }
    | .setValue h v k =>
      match s.cells[h]? with
      | some .pending =>
        some { s with cells := (s.cells.set h (.ready v)).set i (.running k) }
      | _ => none
  | _ => none

/-- Runs a schedule: the list names the thread that moves next; a thread that
cannot move leaves the state as it is. Every interleaving of the threads is
the run of some schedule. -/
def run (s : State) : List Nat → State
  | [] => s
  | i :: sched => run ((step s i).getD s) sched

/-- The state a test starts from: an empty log and the main thread. -/
def init (main : Prog) : State :=
  { events := [], cells := [.running main] }

/-- The value the main thread has returned, if it has. -/
def State.result (s : State) : Option Val :=
  match s.cells[(0 : Nat)]? with
  | some (.ready v) => some v
  | _ => none

/-! ## Part 3: `get`, `post`, `get_parallel` and the test scenarios -/

/-- The task `get` launches: sleep, push the exit event, return the result. -/
def getTask (url : String) : Prog :=
  .sleep <| .push { source := "get: " ++ url, message := "exit" } <|
    .ret (.str ("results for " ++ url))

/-- `AsyncTest::get(url)`: push the entry event, launch the task, return its
future. -/
def get (url : String) (k : Handle → Prog) : Prog :=
  .push { source := "get: " ++ url, message := "entry" } <| .async (getTask url) k

/-- The task `post` launches. -/
def postTask (url : String) : Prog :=
  .sleep <| .push { source := "post: " ++ url, message := "exit" } <|
    .ret (.str ("posted to " ++ url))

/-- `AsyncTest::post(url, args)`. -/
def post (url : String) (args : Args) (k : Handle → Prog) : Prog :=
  .push { source := "post: " ++ url, message := "entry", arguments := args } <|
    .async (postTask url) k

/-- The loop of `get_parallel`: `futures.emplace_back(get(url))` for every
url in turn. -/
def getLoop : List String → List Handle → (List Handle → Prog) → Prog
  | [], futures, k => k futures
  | url :: urls, futures, k => get url fun h => getLoop urls (futures ++ [h]) k

/-- `AsyncTest::get_parallel(urls)`. -/
def get_parallel (urls : List String) (k : Val → Prog) : Prog :=
  .push { source := "get_parallel: ", message := "entry" } <|
    getLoop urls [] fun futures =>
      .push { source := "get_parallel: ", message := "exit" } <| k (.futs futures)

/-- The test `we_can_wait_for_delegated_stuff` up to its assertions, for an
upstream url `u` and a downstream url `v` (the test has
`u = "http://google.com"` and `v = "http://spell_checker.com"`): launch
`get(u)`, launch a task that retrieves the result and calls `post` with it,
retrieve that task's result, the future of the `post`. -/
def chain (u v : String) : Prog :=
  get u fun google =>
    .async (.get google fun r => post v [("text", r.toStr)] fun h => .ret (.fut h)) fun outer =>
      .get outer fun correct => .ret correct

/-- `std::to_string(int)`. -/
def to_string (n : Int) : String := toString n

/-- The `for` loop of the `task` lambda of
`we_can_delay_execution_till_input_is_known`: `n` sleeps in a row (the loop
`for (int i = 0; i != n; ++i)` for `n ≥ 0`). -/
def sleeps : Nat → Prog → Prog
  | 0, k => k
  | n + 1, k => .sleep (sleeps n k)

/-- The `task` lambda: wait for the input, log it, sleep `n` times, log the
return, return `n`. -/
def task (n_future : Handle) : Prog :=
  .get n_future fun n =>
    .push { source := "task: n received: " ++ to_string n.toInt, message := "" } <|
      sleeps n.toInt.toNat <|
        .push { source := "task returns " ++ to_string n.toInt, message := "" } <|
          .ret (.int n.toInt)

/-- The test `we_can_delay_execution_till_input_is_known` up to its
assertions, for an input `n` (the test has `n = 10`). The future of the second
`std::async` is a temporary: its destructor waits for that task, which is the
`get` on `setter`. The value returned stands for the local `result`. -/
def delayed (n : Nat) : Prog :=
  .promise fun fut =>
    .async (task fut) fun result_fut =>
      .async (.push { source := "input defined", message := "" } <|
          .setValue fut (.int n) <| .ret .unit) fun setter =>
        .get setter fun _ =>
          .get result_fut fun result =>
            .push { source := "\x7breturn value known: " ++ to_string result.toInt,
                    message := "" } <|
              .ret result

/-! ## Part 4: assertions for the proofs about interleavings

The log only grows and a ready future never changes, so a thread may rely on
every fact it has learnt. A guard says when an event may be pushed; a future
carries a postcondition on its value and on the log at the time it becomes
ready. -/

/-- What a future guarantees about its value and the log once it is ready. -/
abbrev Post := Val → List Event → Prop

/-- A postcondition survives the growth of the log. -/
def Post.Mono (Q : Post) : Prop :=
  ∀ v L L', L <+: L' → Q v L → Q v L'

/-- Every event of the log satisfied the guard `G` against the log it was
pushed onto. -/
def Disciplined (G : List Event → Event → Prop) (L : List Event) : Prop :=
  ∀ L0 e, L0 ++ [e] <+: L → G L0 e

/-- The proof outline of a thread: from the log `L` on, the program `p` pushes
only events their guard admits, fulfils promises only with values their
postcondition admits, and returns only values its own postcondition `Q`
admits. `H` holds the postconditions of the futures the thread knows; a
future just created is one the thread did not know. With `U` every
postcondition is trivial, and any promise may be fulfilled. -/
def Safe (G : List Event → Event → Prop) (U : Prop) :
    Prog → (Handle → Option Post) → List Event → Post → Prop
  | .ret v, _, L, Q => ∀ L', L <+: L' → Q v L'
  | .push e k, H, L, Q => ∀ L', L <+: L' → G L' e ∧ Safe G U k H (L' ++ [e]) Q
  | .sleep k, H, L, Q => Safe G U k H L Q
  | .async body k, H, L, Q =>
    ∃ Q' : Post, Q'.Mono ∧ (U → ∀ v L', Q' v L') ∧ Safe G U body H L Q' ∧
      ∀ h, H h = none → Safe G U (k h) (Function.update H h (some Q')) L Q
  | .get h k, H, L, Q =>
    ∀ v L', L <+: L' → (∀ Q', H h = some Q' → Q' v L') → Safe G U (k v) H L' Q
  | .promise k, H, L, Q =>
    ∃ Q' : Post, Q'.Mono ∧ (U → ∀ v L', Q' v L') ∧
      ∀ h, H h = none → Safe G U (k h) (Function.update H h (some Q')) L Q
  | .setValue h v k, H, L, Q =>
    ((∃ Q', H h = some Q' ∧ ∀ L', L <+: L' → Q' v L') ∨ U) ∧ Safe G U k H L Q

/-- What a thread knows about futures agrees with their postconditions. -/
def Consistent (posts : List Post) (H : Handle → Option Post) : Prop :=
  ∀ h Q, H h = some Q → posts[h]? = some Q

/-- A cell is in order: a running thread has a proof outline, a ready future
satisfies its postcondition. -/
def CellOk (G : List Event → Event → Prop) (U : Prop) (posts : List Post) (L : List Event)
    (Q : Post) : Cell → Prop
  | .running p => ∃ H, Consistent posts H ∧ Safe G U p H L Q
  | .pending => True
  | .ready v => Q v L

/-- The invariant of an execution: `posts` lists the postcondition of every
future. -/
structure Invariant (G : List Event → Event → Prop) (U : Prop) (posts : List Post) (s : State) :
    Prop where
  len : posts.length = s.cells.length
  mono : ∀ Q ∈ posts, Post.Mono Q
  triv : U → ∀ Q ∈ posts, ∀ v L, Q v L
  disc : Disciplined G s.events
  cell : ∀ (j : Nat) c Q, s.cells[j]? = some c → posts[j]? = some Q → CellOk G U posts s.events Q c

/-! ## Part 5: the wording of the ordering claims -/

/-- Position `i` holds the first stored event with the source and message of
`e`. -/
def FirstAt (L : List Event) (e : Event) (i : Nat) : Prop :=
  ∃ h : i < L.length,
    ((L.get ⟨i, h⟩).source = e.source ∧ (L.get ⟨i, h⟩).message = e.message) ∧
      ∀ j (hj : j < L.length), j < i →
        ¬ ((L.get ⟨j, hj⟩).source = e.source ∧ (L.get ⟨j, hj⟩).message = e.message)

/-- Both events occur in the log and the first occurrence of `e1` precedes the
first occurrence of `e2`. -/
def Before (L : List Event) (e1 e2 : Event) : Prop :=
  ∃ i j, FirstAt L e1 i ∧ FirstAt L e2 j ∧ i < j

/-- A program that appends to the log only through `get`, `post` and
`get_parallel`: it may return, sleep, launch client tasks, wait for futures,
create and fulfil promises, and call the three operations. -/
inductive Client : Prog → Prop
  | ret (v : Val) : Client (.ret v)
  | sleep {k : Prog} : Client k → Client (.sleep k)
  | async {body : Prog} {k : Handle → Prog} :
      Client body → (∀ h, Client (k h)) → Client (.async body k)
  | await (h : Handle) {k : Val → Prog} : (∀ v, Client (k v)) → Client (.get h k)
  | promise {k : Handle → Prog} : (∀ h, Client (k h)) → Client (.promise k)
  | setValue (h : Handle) (v : Val) {k : Prog} : Client k → Client (.setValue h v k)
  | callGet (url : String) {k : Handle → Prog} :
      (∀ h, Client (k h)) → Client (get url k)
  | callPost (url : String) (args : Args) {k : Handle → Prog} :
      (∀ h, Client (k h)) → Client (post url args k)
  | callGetParallel (urls : List String) {k : Val → Prog} :
      (∀ v, Client (k v)) → Client (get_parallel urls k)

/-- The guard behind entry-before-exit: an `"exit"` event is pushed only onto
a log that stores the `"entry"` event of the same source. -/
def exitGuard (L : List Event) (e : Event) : Prop :=
  e.message = "exit" → Stored L { source := e.source, message := "entry" }

/-- The postcondition that says nothing. -/
def anyPost : Post := fun _ _ => True

/-- The end of the example client: wait for the result of `post`. -/
def clientAfterPost : Handle → Prog :=
  fun h => .get h fun _ => .ret .unit

/-- The example client after `get("a")`: wait for the result and `post` it to
`"b"`. -/
def clientAfterGet : Handle → Prog :=
  fun h => .get h fun r => post "b" [("text", r.toStr)] clientAfterPost

/-- A client of the log: `get("a")`, then `post("b", ..)` with its result. -/
def clientExample : Prog :=
  get "a" clientAfterGet

/-- The guard of the dependent chain: the entry event of `post(v, ..)` is
pushed only onto a log that stores the exit event of `get(u)`, and carries the
result of `get(u)` under `"text"`. -/
def chainGuard (u v : String) (L : List Event) (e : Event) : Prop :=
  e.source = "post: " ++ v ∧ e.message = "entry" →
    Stored L { source := "get: " ++ u, message := "exit" } ∧
      e.arguments = [("text", "results for " ++ u)]

/-- The future of `get(u)` is ready: its value is the result string and the
exit event is stored. -/
def getPost (u : String) : Post :=
  fun w L => w = .str ("results for " ++ u) ∧
    Stored L { source := "get: " ++ u, message := "exit" }

/-- The chain task has completed: the entry event of `post(v, ..)` is stored. -/
def chainPost (v : String) : Post :=
  fun _ L => Stored L { source := "post: " ++ v, message := "entry" }

/-- The guard of the deferred-input test: the "received" event is pushed only
onto a log that stores "input defined", the "return value known" event only
onto a log that stores "task returns". -/
def delayedGuard (n : Nat) (L : List Event) (e : Event) : Prop :=
  (e.source = "task: n received: " ++ to_string n ∧ e.message = "" →
      Stored L { source := "input defined", message := "" }) ∧
    (e.source = "\x7breturn value known: " ++ to_string n ∧ e.message = "" →
      Stored L { source := "task returns " ++ to_string n, message := "" })

/-- The input future is ready: its value is `n` and "input defined" is
stored. -/
def inputPost (n : Nat) : Post :=
  fun w L => w = .int n ∧ Stored L { source := "input defined", message := "" }

/-- The future of the task is ready: its value is `n`, and the task has logged
the input and its return. -/
def taskPost (n : Nat) : Post :=
  fun w L => w = .int n ∧
    Stored L { source := "task: n received: " ++ to_string n, message := "" } ∧
    Stored L { source := "task returns " ++ to_string n, message := "" }

/-- The test has reached its assertions: `result` is `n`, and the log stores
the "received" and the "return value known" events. -/
def delayedPost (n : Nat) : Post :=
  fun w L => w = .int n ∧
    Stored L { source := "task: n received: " ++ to_string n, message := "" } ∧
    Stored L { source := "\x7breturn value known: " ++ to_string n, message := "" }

/-- The part of the log that `get_parallel` pushes itself: every event but the
exit events of tasks (the entry and exit events of `get_parallel` have the
source `"get_parallel: "`, the other events it pushes are entry events). -/
def ownPart (L : List Event) : List Event :=
  L.filter fun e => !(e.message == "exit" && e.source != "get_parallel: ")

/-- The events `get_parallel(urls)` pushes itself, in order. -/
def fanOutLog (urls : List String) : List Event :=
  { source := "get_parallel: ", message := "entry" } ::
    urls.map (fun u => { source := "get: " ++ u, message := "entry" }) ++
      [{ source := "get_parallel: ", message := "exit" }]

/-- The cell of the task that `get(u)` launched, at any stage: about to sleep,
about to push the exit event, about to return, or ready with its result. -/
def TaskOf (u : String) (c : Cell) : Prop :=
  c = .running (getTask u) ∨
  c = .running (.push { source := "get: " ++ u, message := "exit" } <|
        .ret (.str ("results for " ++ u))) ∨
  c = .running (.ret (.str ("results for " ++ u))) ∨
  c = .ready (.str ("results for " ++ u))

/-- The cells `ws` are, in order, the tasks of the urls. -/
def TasksOf (urls : List String) (ws : List Cell) : Prop :=
  ws.length = urls.length ∧
    ∀ (j : Nat) u c, urls[j]? = some u → ws[j]? = some c → TaskOf u c

/-- The end of `get_parallel` after the loop: push the exit event and return
the futures. -/
def fanOutEnd (futures : List Handle) : Prog :=
  .push { source := "get_parallel: ", message := "exit" } <| .ret (.futs futures)

/-- The states of an execution of `get_parallel(urls)` as the main thread:
before the first push, in the loop before a `get`, inside a `get` between its
push and its launch, before the return, and returned. The tasks launched so
far are at any stage. -/
inductive FanOut (urls : List String) : State → Prop
  | start : FanOut urls (init (get_parallel urls .ret))
  | loop (done rest : List String) (ws : List Cell) (L : List Event) :
      urls = done ++ rest → TasksOf done ws →
      ownPart L = { source := "get_parallel: ", message := "entry" } ::
        done.map (fun u => { source := "get: " ++ u, message := "entry" }) →
      FanOut urls ⟨L,
        .running (getLoop rest (List.range' 1 done.length) fanOutEnd) :: ws⟩
  | launch (done : List String) (u : String) (rest : List String) (ws : List Cell)
      (L : List Event) :
      urls = done ++ u :: rest → TasksOf done ws →
      ownPart L = { source := "get_parallel: ", message := "entry" } ::
        (done ++ [u]).map (fun u => { source := "get: " ++ u, message := "entry" }) →
      FanOut urls ⟨L,
        .running (.async (getTask u) fun h =>
          getLoop rest (List.range' 1 done.length ++ [h]) fanOutEnd) :: ws⟩
  | last (ws : List Cell) (L : List Event) :
      TasksOf urls ws → ownPart L = fanOutLog urls →
      FanOut urls ⟨L, .running (.ret (.futs (List.range' 1 urls.length))) :: ws⟩
  | returned (ws : List Cell) (L : List Event) :
      TasksOf urls ws → ownPart L = fanOutLog urls →
      FanOut urls ⟨L, .ready (.futs (List.range' 1 urls.length)) :: ws⟩

/-! # Theorems -/

/-! ### Lemmas on the scan -/

theorem Event.eq_iff (a b : Event) :
    a.eq b = true ↔ a.source = b.source ∧ a.message = b.message := by
  simp [Event.eq]

theorem stdFind_le (L : List Event) (e : Event) : stdFind L e ≤ L.length := by
  induction L with
  | nil => simp [stdFind]
  | cons x xs ih =>
    simp only [stdFind, List.length_cons]
    split <;> omega

theorem stdFind_lt_iff (L : List Event) (e : Event) :
    stdFind L e < L.length ↔ Stored L e := by
  induction L with
  | nil => simp [stdFind, Stored]
  | cons x xs ih =>
    simp only [stdFind, List.length_cons, Stored, List.mem_cons, exists_eq_or_imp]
    by_cases hx : x.eq e = true
    · simp only [hx, if_true]
      have := (Event.eq_iff x e).1 hx
      simp [this]
    · simp only [hx]
      have hne : ¬ (x.source = e.source ∧ x.message = e.message) :=
        fun h => hx ((Event.eq_iff x e).2 h)
      simp only [Bool.false_eq_true, if_false, Nat.add_lt_add_iff_right, hne, false_or]
      exact ih

theorem stdFind_eq_length_iff (L : List Event) (e : Event) :
    stdFind L e = L.length ↔ ¬ Stored L e := by
  have h1 := stdFind_le L e
  have h2 := stdFind_lt_iff L e
  constructor
  · intro h hs
    have := h2.2 hs
    omega
  · intro h
    have : ¬ stdFind L e < L.length := fun hlt => h (h2.1 hlt)
    omega

theorem stdFind_get (L : List Event) (e : Event) (h : stdFind L e < L.length) :
    (L.get ⟨stdFind L e, h⟩).source = e.source ∧
      (L.get ⟨stdFind L e, h⟩).message = e.message := by
  induction L with
  | nil => simp at h
  | cons x xs ih =>
    by_cases hx : x.eq e = true
    · have h0 : stdFind (x :: xs) e = 0 := by simp [stdFind, hx]
      have hx2 := (Event.eq_iff x e).1 hx
      simp only [h0, List.get_eq_getElem, List.getElem_cons_zero]
      exact hx2
    · have h1 : stdFind (x :: xs) e = stdFind xs e + 1 := by simp [stdFind, hx]
      have hlt : stdFind xs e < xs.length := by
        simp only [h1, List.length_cons] at h
        omega
      have := ih hlt
      simp only [h1, List.get_eq_getElem, List.getElem_cons_succ]
      simpa using this

theorem stdFind_before (L : List Event) (e : Event) (j : Nat) (hj : j < stdFind L e)
    (hjl : j < L.length) :
    ¬ ((L.get ⟨j, hjl⟩).source = e.source ∧ (L.get ⟨j, hjl⟩).message = e.message) := by
  induction L generalizing j with
  | nil => simp at hjl
  | cons x xs ih =>
    by_cases hx : x.eq e = true
    · simp [stdFind, hx] at hj
    · have h1 : stdFind (x :: xs) e = stdFind xs e + 1 := by simp [stdFind, hx]
      cases j with
      | zero =>
        simp only [List.get_eq_getElem, List.getElem_cons_zero]
        exact fun h => hx ((Event.eq_iff x e).2 h)
      | succ j =>
        have hj2 : j < stdFind xs e := by omega
        have hjl2 : j < xs.length := by simpa using hjl
        simpa using ih j hj2 hjl2


/-! ### Soundness of the proof outlines -/

theorem Stored.mono {L L' : List Event} {e : Event} (h : Stored L e) (hp : L <+: L') :
    Stored L' e := by
  obtain ⟨x, hx, hxe⟩ := h
  exact ⟨x, hp.subset hx, hxe⟩

theorem Stored.concat_self (L : List Event) (e : Event) : Stored (L ++ [e]) e :=
  ⟨e, by simp, rfl, rfl⟩

theorem Disciplined.nil (G : List Event → Event → Prop) : Disciplined G [] := by
  intro L0 e h
  have := List.IsPrefix.length_le h
  simp at this

theorem Disciplined.concat {G : List Event → Event → Prop} {L : List Event} {e : Event}
    (hd : Disciplined G L) (hg : G L e) : Disciplined G (L ++ [e]) := by
  intro L0 e0 h
  rcases List.prefix_concat_iff.1 h with h | h
  · have h1 := List.append_inj_left' h rfl
    have h2 := List.append_inj_right' h rfl
    simp only [List.cons.injEq, and_true] at h2
    subst h1 h2
    exact hg
  · exact hd L0 e0 h

theorem Safe.mono_log {G : List Event → Event → Prop} {U : Prop} {p : Prog}
    {H : Handle → Option Post} {L L1 : List Event} {Q : Post}
    (hs : Safe G U p H L Q) (hp : L <+: L1) : Safe G U p H L1 Q := by
  induction p generalizing H L L1 Q with
  | ret v => exact fun L' h => hs L' (hp.trans h)
  | push e k _ => exact fun L' h => hs L' (hp.trans h)
  | sleep k ih => exact ih hs hp
  | async body k ihb ihk =>
    obtain ⟨Q', hm, ht, hb, hk⟩ := hs
    exact ⟨Q', hm, ht, ihb hb hp, fun h hn => ihk h (hk h hn) hp⟩
  | get h k _ => exact fun v L' hl hq => hs v L' (hp.trans hl) hq
  | promise k ihk =>
    obtain ⟨Q', hm, ht, hk⟩ := hs
    exact ⟨Q', hm, ht, fun h hn => ihk h (hk h hn) hp⟩
  | setValue h v k ih =>
    refine ⟨?_, ih hs.2 hp⟩
    rcases hs.1 with ⟨Q', hq, hall⟩ | hu
    · exact Or.inl ⟨Q', hq, fun L' hl => hall L' (hp.trans hl)⟩
    · exact Or.inr hu

theorem Consistent.append {posts : List Post} {H : Handle → Option Post}
    (hc : Consistent posts H) (Q' : Post) : Consistent (posts ++ [Q']) H := by
  intro h Q hq
  have := hc h Q hq
  obtain ⟨hlt, _⟩ := List.getElem?_eq_some_iff.1 this
  rw [List.getElem?_append_left hlt]
  exact this

theorem Consistent.fresh {posts : List Post} {H : Handle → Option Post}
    (hc : Consistent posts H) {n : Nat} (hn : posts.length = n) : H n = none := by
  cases hq : H n with
  | none => rfl
  | some Q =>
    have := (List.getElem?_eq_some_iff.1 (hc n Q hq)).1
    omega

theorem Consistent.update {posts : List Post} {H : Handle → Option Post}
    (hc : Consistent posts H) (Q' : Post) :
    Consistent (posts ++ [Q']) (Function.update H posts.length (some Q')) := by
  intro h Q hq
  by_cases hh : h = posts.length
  · subst hh
    simp only [Function.update_same, Option.some.injEq] at hq
    subst hq
    exact List.getElem?_concat_length posts _
  · rw [Function.update_noteq hh] at hq
    exact hc.append Q' h Q hq

theorem CellOk.grow {G : List Event → Event → Prop} {U : Prop} {posts : List Post}
    {L L' : List Event} {Q : Post} {c : Cell} (hq : Q.Mono) (hp : L <+: L')
    (h : CellOk G U posts L Q c) : CellOk G U posts L' Q c := by
  cases c with
  | running p =>
    obtain ⟨H, hc, hs⟩ := h
    exact ⟨H, hc, hs.mono_log hp⟩
  | pending => trivial
  | ready v => exact hq v L L' hp h

theorem CellOk.extend {G : List Event → Event → Prop} {U : Prop} {posts : List Post}
    {L : List Event} {Q : Post} {c : Cell} (Q' : Post)
    (h : CellOk G U posts L Q c) : CellOk G U (posts ++ [Q']) L Q c := by
  cases c with
  | running p =>
    obtain ⟨H, hc, hs⟩ := h
    exact ⟨H, hc.append Q', hs⟩
  | pending => trivial
  | ready v => exact h

theorem Invariant.set {G : List Event → Event → Prop} {U : Prop} {posts : List Post} {s : State}
    (hinv : Invariant G U posts s) {j : Nat} {Qj : Post} (hQ : posts[j]? = some Qj)
    {L' : List Event} (hp : s.events <+: L') (hd : Disciplined G L') {c' : Cell}
    (hc : CellOk G U posts L' Qj c') :
    Invariant G U posts { events := L', cells := s.cells.set j c' } := by
  refine ⟨by simpa using hinv.len, hinv.mono, hinv.triv, hd, ?_⟩
  intro a c Q hca hqa
  simp only [List.getElem?_set] at hca
  by_cases hja : j = a
  · subst hja
    rw [if_pos rfl] at hca
    split at hca
    · simp only [Option.some.injEq] at hca
      rw [hQ] at hqa
      simp only [Option.some.injEq] at hqa
      subst hca hqa
      exact hc
    · exact absurd hca (by simp)
  · rw [if_neg hja] at hca
    have hm : Q.Mono := hinv.mono Q (List.getElem?_mem hqa)
    exact (hinv.cell a c Q hca hqa).grow hm hp

theorem Invariant.alloc {G : List Event → Event → Prop} {U : Prop} {posts : List Post} {s : State}
    (hinv : Invariant G U posts s) {i : Nat} {Qi : Post} (hQ : posts[i]? = some Qi)
    {c' cnew : Cell} {Q' : Post} (hm : Q'.Mono) (ht : U → ∀ v L, Q' v L)
    (hc : CellOk G U (posts ++ [Q']) s.events Qi c')
    (hn : CellOk G U (posts ++ [Q']) s.events Q' cnew) :
    Invariant G U (posts ++ [Q']) { s with cells := s.cells.set i c' ++ [cnew] } := by
  have hilt : i < posts.length := (List.getElem?_eq_some_iff.1 hQ).1
  refine ⟨by simp [hinv.len], ?_, ?_, hinv.disc, ?_⟩
  · intro Q hq
    rcases List.mem_append.1 hq with h | h
    · exact hinv.mono Q h
    · simp only [List.mem_singleton] at h
      exact h ▸ hm
  · intro hu Q hq
    rcases List.mem_append.1 hq with h | h
    · exact hinv.triv hu Q h
    · simp only [List.mem_singleton] at h
      exact h ▸ ht hu
  · intro a c Q hca hqa
    simp only at hca
    by_cases hal : a < posts.length
    · rw [List.getElem?_append_left (by simpa [hinv.len] using hal)] at hca
      rw [List.getElem?_append_left hal] at hqa
      simp only [List.getElem?_set] at hca
      by_cases hia : i = a
      · subst hia
        rw [if_pos rfl, if_pos (by rwa [← hinv.len])] at hca
        simp only [Option.some.injEq] at hca
        rw [hQ] at hqa
        simp only [Option.some.injEq] at hqa
        subst hca hqa
        exact hc
      · rw [if_neg hia] at hca
        exact (hinv.cell a c Q hca hqa).extend Q'
    · have hle : posts.length ≤ a := Nat.le_of_not_lt hal
      rw [List.getElem?_append_right (by simpa [hinv.len] using hle)] at hca
      rw [List.getElem?_append_right hle] at hqa
      have ha : a - posts.length = 0 := by
        by_contra hne
        have : 1 ≤ a - posts.length := Nat.one_le_iff_ne_zero.2 hne
        rw [List.getElem?_eq_none (by simpa using this)] at hqa
        exact absurd hqa (by simp)
      have ha' : a - (s.cells.set i c').length = 0 := by simpa [← hinv.len] using ha
      rw [ha'] at hca
      rw [ha] at hqa
      simp only [List.getElem?_cons_zero, Option.some.injEq] at hca hqa
      subst hca hqa
      exact hn

theorem invariant_step {G : List Event → Event → Prop} {U : Prop} {posts : List Post}
    {s s' : State} (hinv : Invariant G U posts s) {i : Nat} (hstep : step s i = some s') :
    ∃ posts', posts <+: posts' ∧ Invariant G U posts' s' := by
  unfold AsyncTest.step at hstep
  cases hci : s.cells[i]? with
  | none => simp [hci] at hstep
  | some c =>
    have hilt : i < s.cells.length := (List.getElem?_eq_some_iff.1 hci).1
    obtain ⟨Qi, hQ⟩ : ∃ Qi, posts[i]? = some Qi :=
      ⟨_, List.getElem?_eq_getElem (by rw [hinv.len]; exact hilt)⟩
    cases c with
    | pending => simp [hci] at hstep
    | ready v => simp [hci] at hstep
    | running p =>
      obtain ⟨H, hH, hsafe⟩ := hinv.cell i _ _ hci hQ
      cases p with
      | ret v =>
        simp only [hci, Option.some.injEq] at hstep
        subst hstep
        exact ⟨posts, List.prefix_refl _,
          hinv.set hQ (List.prefix_refl _) hinv.disc (hsafe _ (List.prefix_refl _))⟩
      | push e k =>
        simp only [hci, Option.some.injEq] at hstep
        subst hstep
        obtain ⟨hg, hk⟩ := hsafe _ (List.prefix_refl _)
        exact ⟨posts, List.prefix_refl _,
          hinv.set hQ (List.prefix_append _ _) (hinv.disc.concat hg) ⟨H, hH, hk⟩⟩
      | sleep k =>
        simp only [hci, Option.some.injEq] at hstep
        subst hstep
        exact ⟨posts, List.prefix_refl _,
          hinv.set hQ (List.prefix_refl _) hinv.disc ⟨H, hH, hsafe⟩⟩
      | async body k =>
        simp only [hci, Option.some.injEq] at hstep
        subst hstep
        obtain ⟨Q', hm, ht, hb, hk⟩ := hsafe
        refine ⟨posts ++ [Q'], List.prefix_append _ _, hinv.alloc hQ hm ht ?_ ?_⟩
        · exact ⟨_, hH.update Q', hinv.len ▸ hk s.cells.length (hH.fresh hinv.len)⟩
        · exact ⟨H, hH.append Q', hb⟩
      | get h k =>
        simp only [hci] at hstep
        cases hch : s.cells[h]? with
        | none => simp [hch] at hstep
        | some ch =>
          cases ch with
          | running q => simp [hch] at hstep
          | pending => simp [hch] at hstep
          | ready v =>
            simp only [hch, Option.some.injEq] at hstep
            subst hstep
            have hk := hsafe v s.events (List.prefix_refl _)
              (fun Q' hq => hinv.cell h _ Q' hch (hH h Q' hq))
            exact ⟨posts, List.prefix_refl _,
              hinv.set hQ (List.prefix_refl _) hinv.disc ⟨H, hH, hk⟩⟩
      | promise k =>
        simp only [hci, Option.some.injEq] at hstep
        subst hstep
        obtain ⟨Q', hm, ht, hk⟩ := hsafe
        refine ⟨posts ++ [Q'], List.prefix_append _ _, hinv.alloc hQ hm ht ?_ trivial⟩
        exact ⟨_, hH.update Q', hinv.len ▸ hk s.cells.length (hH.fresh hinv.len)⟩
      | setValue h v k =>
        simp only [hci] at hstep
        cases hch : s.cells[h]? with
        | none => simp [hch] at hstep
        | some ch =>
          cases ch with
          | running q => simp [hch] at hstep
          | ready w => simp [hch] at hstep
          | pending =>
            simp only [hch, Option.some.injEq] at hstep
            subst hstep
            have hhlt : h < s.cells.length := (List.getElem?_eq_some_iff.1 hch).1
            obtain ⟨Qh, hQh⟩ : ∃ Qh, posts[h]? = some Qh :=
              ⟨_, List.getElem?_eq_getElem (by rw [hinv.len]; exact hhlt)⟩
            have hv : Qh v s.events := by
              rcases hsafe.1 with ⟨Q', hq, hall⟩ | hu
              · have := hH h Q' hq
                rw [hQh] at this
                simp only [Option.some.injEq] at this
                exact this ▸ hall _ (List.prefix_refl _)
              · exact hinv.triv hu Qh (List.getElem?_mem hQh) v _
            have h1 : Invariant G U posts { events := s.events, cells := s.cells.set h (.ready v) } :=
              hinv.set hQh (List.prefix_refl _) hinv.disc hv
            exact ⟨posts, List.prefix_refl _,
              h1.set hQ (List.prefix_refl _) hinv.disc ⟨H, hH, hsafe.2⟩⟩

theorem invariant_run {G : List Event → Event → Prop} {U : Prop} (sched : List Nat) :
    ∀ {posts : List Post} {s : State}, Invariant G U posts s →
      ∃ posts', posts <+: posts' ∧ Invariant G U posts' (run s sched) := by
  induction sched with
  | nil => exact fun h => ⟨_, List.prefix_refl _, h⟩
  | cons i sched ih =>
    intro posts s hinv
    simp only [AsyncTest.run]
    cases hst : step s i with
    | none => simpa using ih hinv
    | some s' =>
      obtain ⟨posts1, hp1, hinv1⟩ := invariant_step hinv hst
      obtain ⟨posts2, hp2, hinv2⟩ := ih hinv1
      exact ⟨posts2, hp1.trans hp2, by simpa using hinv2⟩

theorem invariant_init {G : List Event → Event → Prop} {U : Prop} {main : Prog} {Q0 : Post}
    (hm : Q0.Mono) (ht : U → ∀ v L, Q0 v L) (hs : Safe G U main (fun _ => none) [] Q0) :
    Invariant G U [Q0] (init main) := by
  refine ⟨rfl, ?_, ?_, Disciplined.nil G, ?_⟩
  · intro Q hq
    simp only [List.mem_singleton] at hq
    exact hq ▸ hm
  · intro hu Q hq
    simp only [List.mem_singleton] at hq
    exact hq ▸ ht hu
  · intro j c Q hc hq
    cases j with
    | zero =>
      simp only [AsyncTest.init, List.getElem?_cons_zero, Option.some.injEq] at hc hq
      subst hc hq
      exact ⟨_, fun h Q hq => absurd hq (by simp), hs⟩
    | succ j => simp [AsyncTest.init] at hc

/-- Soundness of the proof outlines: when the main program has an outline
with postcondition `Q0`, then under every schedule the log is disciplined,
and the value the main thread returns satisfies `Q0`. -/
theorem safe_run {G : List Event → Event → Prop} {U : Prop} {main : Prog} {Q0 : Post}
    (hm : Q0.Mono) (ht : U → ∀ v L, Q0 v L) (hs : Safe G U main (fun _ => none) [] Q0)
    (sched : List Nat) :
    Disciplined G (run (init main) sched).events ∧
      ∀ v, (run (init main) sched).result = some v → Q0 v (run (init main) sched).events := by
  obtain ⟨posts, hp, hinv⟩ := invariant_run sched (invariant_init hm ht hs)
  refine ⟨hinv.disc, fun v hv => ?_⟩
  have hq : posts[(0 : Nat)]? = some Q0 := by
    obtain ⟨t, rfl⟩ := hp
    simp
  unfold State.result at hv
  cases hc : (AsyncTest.run (AsyncTest.init main) sched).cells[(0 : Nat)]? with
  | none => simp [hc] at hv
  | some c =>
    cases c with
    | running p => simp [hc] at hv
    | pending => simp [hc] at hv
    | ready w =>
      simp only [hc, Option.some.injEq] at hv
      subst hv
      exact hinv.cell 0 _ _ hc hq

/-! ### The scan and `push` -/

theorem stdFind_append_of_stored {L : List Event} {q : Event} (h : Stored L q)
    (t : List Event) : stdFind (L ++ t) q = stdFind L q := by
  induction L with
  | nil => simp [Stored] at h
  | cons x xs ih =>
    by_cases hx : x.eq q = true
    · simp [stdFind, hx]
    · have hs : Stored xs q := by
        obtain ⟨y, hy, hyq⟩ := h
        rcases List.mem_cons.1 hy with rfl | hy
        · exact absurd ((Event.eq_iff y q).2 hyq) hx
        · exact ⟨y, hy, hyq⟩
      simp [stdFind, hx, ih hs]

theorem stdFind_append_of_not_stored {L : List Event} {q : Event} (h : ¬ Stored L q)
    (t : List Event) : stdFind (L ++ t) q = L.length + stdFind t q := by
  induction L with
  | nil => simp
  | cons x xs ih =>
    have hx : ¬ x.eq q = true := fun hx => h ⟨x, by simp, (Event.eq_iff x q).1 hx⟩
    have hs : ¬ Stored xs q := fun ⟨y, hy, hyq⟩ => h ⟨y, List.mem_cons_of_mem _ hy, hyq⟩
    have h1 : stdFind (x :: (xs ++ t)) q = stdFind (xs ++ t) q + 1 := by
      simp [stdFind, hx]
    rw [List.cons_append, h1, ih hs, List.length_cons]
    omega

theorem firstAt_iff (L : List Event) (e : Event) (i : Nat) :
    FirstAt L e i ↔ Stored L e ∧ stdFind L e = i := by
  constructor
  · rintro ⟨hi, hm, hfirst⟩
    have hs : Stored L e := ⟨_, List.get_mem L i hi, hm⟩
    refine ⟨hs, ?_⟩
    have hlt := (stdFind_lt_iff L e).2 hs
    rcases Nat.lt_trichotomy (stdFind L e) i with h | h | h
    · exact absurd (stdFind_get L e hlt) (hfirst _ hlt h)
    · exact h
    · exact absurd hm (stdFind_before L e i h hi)
  · rintro ⟨hs, rfl⟩
    have hlt := (stdFind_lt_iff L e).2 hs
    exact ⟨hlt, stdFind_get L e hlt, fun j hj hji => stdFind_before L e j hji hj⟩

theorem find_eq_ok {L : List Event} {e : Event} (h : Stored L e) :
    find L e = .ok (L.get ⟨stdFind L e, (stdFind_lt_iff L e).2 h⟩) := by
  simp only [find, (stdFind_lt_iff L e).2 h, dite_true]

theorem find_eq_error {L : List Event} {e : Event} (h : ¬ Stored L e) :
    find L e = .error (e.message ++ ", " ++ e.source) := by
  have : ¬ stdFind L e < L.length := fun hlt => h ((stdFind_lt_iff L e).1 hlt)
  simp only [find, this, dite_false]

theorem find_append_of_stored {L : List Event} {q : Event} (h : Stored L q)
    (t : List Event) : find (L ++ t) q = find L q := by
  rw [find_eq_ok h, find_eq_ok (h.mono (List.prefix_append L t))]
  have hlt := (stdFind_lt_iff L q).2 h
  simp only [stdFind_append_of_stored h t, List.get_eq_getElem]
  rw [List.getElem_append_left hlt]

theorem take_concat_get_le {L : List Event} {i : Nat} (h : i < L.length) :
    L.take i ++ [L.get ⟨i, h⟩] <+: L := by
  refine ⟨L.drop (i + 1), ?_⟩
  have := List.take_append_drop i L
  rw [List.drop_eq_getElem_cons h] at this
  simp [this]

theorem stored_of_concat_le {L L' : List Event} {e : Event} (hp : L ++ [e] <+: L')
    (q : Event) (h1 : e.source = q.source) (h2 : e.message = q.message) : Stored L' q :=
  Stored.mono ⟨e, List.mem_append_right _ (List.mem_singleton.2 rfl), h1, h2⟩ hp

/-- The order of two first occurrences follows from a guard: when every event
like `b` was pushed onto a log that already stored `a`, and `b` is stored,
then `index a < index b`. -/
theorem index_lt_of_guard {G : List Event → Event → Prop} {L : List Event} {a b : Event}
    (hd : Disciplined G L)
    (hG : ∀ L0 e, e.source = b.source ∧ e.message = b.message → G L0 e → Stored L0 a)
    (hb : Stored L b) : index L a < index L b := by
  have hlt := (stdFind_lt_iff L b).2 hb
  have hm := stdFind_get L b hlt
  have hpre := take_concat_get_le hlt
  have hsa := hG _ _ hm (hd _ _ hpre)
  have h1 := (stdFind_lt_iff _ a).2 hsa
  have h2 := stdFind_append_of_stored hsa (L.drop (stdFind L b))
  rw [List.take_append_drop] at h2
  simp only [List.length_take] at h1
  simp only [index, h2]
  omega

theorem index_lt_of_stored_of_not_stored {L : List Event} {a b : Event} (ha : Stored L a)
    (hb : ¬ Stored L b) : index L a < index L b := by
  have h1 := (stdFind_lt_iff L a).2 ha
  have h2 := (stdFind_eq_length_iff L b).2 hb
  simp only [index, h2]
  exact h1

/-! ### Claims on the event log -/

/-- C1: `index(e)` is the position of the first stored event whose source and
message equal those of `e`: it is at most the length, no earlier event
matches, the event at that position (if any) matches, it is the length of the
log when nothing matches, and the arguments of the stored events and of the
query play no part. -/
theorem index_first_match (L : List Event) (e : Event) :
    index L e ≤ L.length ∧
    (∀ j (hj : j < L.length), j < index L e →
      ¬ ((L.get ⟨j, hj⟩).source = e.source ∧ (L.get ⟨j, hj⟩).message = e.message)) ∧
    (∀ h : index L e < L.length,
      (L.get ⟨index L e, h⟩).source = e.source ∧
        (L.get ⟨index L e, h⟩).message = e.message) ∧
    ((∀ x ∈ L, ¬ (x.source = e.source ∧ x.message = e.message)) → index L e = L.length) ∧
    (∀ (f : Event → Args) (a : Args),
      index (L.map fun x => { x with arguments := f x }) { e with arguments := a }
        = index L e) := by
  refine ⟨stdFind_le L e, fun j hj hlt => stdFind_before L e j hlt hj,
    fun h => stdFind_get L e h, ?_, ?_⟩
  · intro h
    exact (stdFind_eq_length_iff L e).2 (fun ⟨x, hx, hm⟩ => h x hx hm)
  · intro f a
    induction L with
    | nil => rfl
    | cons x xs ih =>
      simp only [index] at ih
      simp only [index, List.map_cons, stdFind, Event.eq, ih]

/-- C2: `find(e)` fails, with the message `e.message + ", " + e.source`,
exactly when no stored event has the source and message of `e`; otherwise it
returns the stored record at the first matching position, arguments
included. -/
theorem find_first_match (L : List Event) (e : Event) :
    ((∃ err, find L e = .error err) ↔ ¬ Stored L e) ∧
    (¬ Stored L e → find L e = .error (e.message ++ ", " ++ e.source)) ∧
    (Stored L e → ∃ i, ∃ h : i < L.length, FirstAt L e i ∧ find L e = .ok (L.get ⟨i, h⟩)) := by
  refine ⟨⟨?_, fun h => ⟨_, find_eq_error h⟩⟩, fun h => find_eq_error h, ?_⟩
  · rintro ⟨err, herr⟩ hs
    rw [find_eq_ok hs] at herr
    exact absurd herr (by simp)
  · intro hs
    exact ⟨_, (stdFind_lt_iff L e).2 hs, (firstAt_iff L e _).2 ⟨hs, rfl⟩, find_eq_ok hs⟩

/-- C3: `push` always succeeds and appends at the end: the new log is the old
one followed by `e`, every stored event keeps its position, the index of
every event that was found is unchanged, and afterwards `index(e)` is below
the new length and `find(e)` succeeds. -/
theorem push_appends (L : List Event) (e : Event) :
    push L e = L ++ [e] ∧
    (push L e).length = L.length + 1 ∧
    (∀ i (h : i < L.length), (push L e)[i]? = some (L.get ⟨i, h⟩)) ∧
    (∀ q, Stored L q → index (push L e) q = index L q) ∧
    index (push L e) e < (push L e).length ∧
    (∃ x, find (push L e) e = .ok x) := by
  have hs : Stored (push L e) e := Stored.concat_self L e
  refine ⟨rfl, by simp [push], ?_, ?_, (stdFind_lt_iff _ e).2 hs, ⟨_, find_eq_ok hs⟩⟩
  · intro i h
    simp [push, List.getElem?_append_left h]
  · intro q hq
    exact stdFind_append_of_stored hq [e]

/-- C9 as stated fails: with the log `[a]` and an event `b` that was never
pushed, `index(a) < index(b)` holds although `b` does not occur in the log, so
`a` was not appended before any occurrence of `b`. -/
theorem index_lt_without_second :
    index [{ source := "s", message := "entry" }] { source := "s", message := "entry" }
        < index [{ source := "s", message := "entry" }] { source := "s", message := "exit" } ∧
      ¬ Stored [{ source := "s", message := "entry" }] { source := "s", message := "exit" } ∧
      ¬ Before [{ source := "s", message := "entry" }]
          { source := "s", message := "entry" } { source := "s", message := "exit" } := by
  have hns : ¬ Stored [{ source := "s", message := "entry" }]
      { source := "s", message := "exit" } := by
    simp [Stored]
  refine ⟨by decide, hns, ?_⟩
  rintro ⟨i, j, _, hj, _⟩
  exact hns ((firstAt_iff _ _ _).1 hj).1

/-- C9, amended: `index(e1) < index(e2)` holds exactly when `e1` occurs in the
log and either `e2` does not occur in it or the first occurrence of `e1`
precedes the first occurrence of `e2`. -/
theorem index_lt_iff (L : List Event) (e1 e2 : Event) :
    index L e1 < index L e2 ↔ Stored L e1 ∧ (¬ Stored L e2 ∨ Before L e1 e2) := by
  constructor
  · intro h
    have hle := stdFind_le L e2
    have hs1 : Stored L e1 := (stdFind_lt_iff L e1).1 (by simp only [index] at h; omega)
    refine ⟨hs1, ?_⟩
    by_cases hs2 : Stored L e2
    · exact Or.inr ⟨_, _, (firstAt_iff L e1 _).2 ⟨hs1, rfl⟩, (firstAt_iff L e2 _).2 ⟨hs2, rfl⟩, h⟩
    · exact Or.inl hs2
  · rintro ⟨hs1, hs2 | ⟨i, j, hi, hj, hij⟩⟩
    · exact index_lt_of_stored_of_not_stored hs1 hs2
    · have h1 := ((firstAt_iff L e1 i).1 hi).2
      have h2 := ((firstAt_iff L e2 j).1 hj).2
      simp only [index, h1, h2]
      exact hij

/-- C10 as stated fails: the log `[a]` stores an event like `e`, yet pushing
`e` moves the index of a query that matches nothing from 1 to 2. -/
theorem push_duplicate_moves_index :
    Stored [{ source := "s", message := "entry" }]
        { source := "s", message := "entry", arguments := [("k", "v")] } ∧
      index [{ source := "s", message := "entry" }] { source := "t", message := "entry" } = 1 ∧
      index (push [{ source := "s", message := "entry" }]
          { source := "s", message := "entry", arguments := [("k", "v")] })
        { source := "t", message := "entry" } = 2 := by
  refine ⟨?_, by decide, by decide⟩
  simp [Stored]

/-- C10, amended: when the log already stores an event with the source and
message of `e`, pushing `e` changes the result of `find(q)` for no query `q`
and the value of `index(q)` for no query that matches a stored event; for a
query that matches nothing `index(q)` stays the length of the log, which has
grown by one. After two pushes with the same source and message, the second
onto a log whose only such event is the first, `find` returns the
first push, with its arguments. -/
theorem push_duplicate_keeps_first (L : List Event) (e : Event) (h : Stored L e) :
    (∀ q, find (push L e) q = find L q) ∧
    (∀ q, Stored L q → index (push L e) q = index L q) ∧
    (∀ q, ¬ Stored L q → index L q = L.length ∧ index (push L e) q = (push L e).length) ∧
    (∀ L0 e1, L = push L0 e1 → ¬ Stored L0 e → find (push L e) e = .ok e1) := by
  have habs : ∀ q, ¬ Stored L q → ¬ Stored (push L e) q := by
    rintro q hq ⟨x, hx, hxq⟩
    simp only [push, List.mem_append, List.mem_singleton] at hx
    rcases hx with hx | rfl
    · exact hq ⟨x, hx, hxq⟩
    · obtain ⟨y, hy, hye⟩ := h
      exact hq ⟨y, hy, hye.1.trans hxq.1, hye.2.trans hxq.2⟩
  refine ⟨?_, fun q hq => stdFind_append_of_stored hq [e], ?_, ?_⟩
  · intro q
    by_cases hq : Stored L q
    · exact find_append_of_stored hq [e]
    · rw [find_eq_error hq, find_eq_error (habs q hq)]
  · intro q hq
    exact ⟨(stdFind_eq_length_iff L q).2 hq, (stdFind_eq_length_iff _ q).2 (habs q hq)⟩
  · rintro L0 e1 rfl hL0
    rw [show push (push L0 e1) e = push L0 e1 ++ [e] from rfl, find_append_of_stored h,
      find_eq_ok h]
    have hst : stdFind (push L0 e1) e = L0.length + stdFind [e1] e :=
      stdFind_append_of_not_stored hL0 [e1]
    have he1 : e1.eq e = true := by
      obtain ⟨y, hy, hye⟩ := h
      simp only [push, List.mem_append, List.mem_singleton] at hy
      rcases hy with hy | rfl
      · exact absurd ⟨y, hy, hye⟩ hL0
      · exact (Event.eq_iff _ _).2 hye
    have h0 : stdFind [e1] e = 0 := by simp [stdFind, he1]
    congr 1
    have hk : stdFind (L0 ++ [e1]) e = L0.length := by simpa [push, h0] using hst
    have key : (L0 ++ [e1])[stdFind (L0 ++ [e1]) e]? = some e1 := by
      rw [hk]
      exact List.getElem?_concat_length L0 e1
    exact (List.getElem?_eq_some_iff.1 key).2

/-- C10, amended, at a concrete log: the second push of `("s", "entry")` with
other arguments leaves `find` at the first push. -/
theorem push_duplicate_keeps_first_witness :
    find (push (push [] { source := "s", message := "entry", arguments := [("k", "1")] })
        { source := "s", message := "entry", arguments := [("k", "2")] })
      { source := "s", message := "entry", arguments := [("k", "2")] }
      = .ok { source := "s", message := "entry", arguments := [("k", "1")] } :=
  (push_duplicate_keeps_first
    (push [] { source := "s", message := "entry", arguments := [("k", "1")] })
    { source := "s", message := "entry", arguments := [("k", "2")] }
    ⟨_, List.mem_singleton.2 rfl, rfl, rfl⟩).2.2.2 [] _ rfl (by simp [Stored])

/-! ### Entry before exit -/

theorem entry_ne_exit : ("entry" : String) ≠ "exit" := by decide

theorem safe_task_exit (src : String) (v : Val) (H : Handle → Option Post) (L : List Event)
    (hs : Stored L { source := src, message := "entry" }) :
    Safe exitGuard True (.sleep <| .push { source := src, message := "exit" } <| .ret v)
      H L anyPost := by
  intro L' hp
  exact ⟨fun _ => hs.mono hp, fun _ _ => trivial⟩

theorem safe_launch (src : String) (args : Args) (v : Val) (k : Handle → Prog)
    (H : Handle → Option Post) (L : List Event)
    (hk : ∀ h H' L', L <+: L' → Stored L' { source := src, message := "entry" } →
      Safe exitGuard True (k h) H' L' anyPost) :
    Safe exitGuard True
      (.push { source := src, message := "entry", arguments := args } <|
        .async (.sleep <| .push { source := src, message := "exit" } <| .ret v) k)
      H L anyPost := by
  intro L' hp
  have hst : Stored (L' ++ [{ source := src, message := "entry", arguments := args }])
      { source := src, message := "entry" } :=
    ⟨_, List.mem_append_right _ (List.mem_singleton.2 rfl), rfl, rfl⟩
  refine ⟨fun h => absurd h entry_ne_exit, anyPost, fun _ _ _ _ _ => trivial,
    fun _ _ _ => trivial, safe_task_exit src v H _ hst, fun h _ => ?_⟩
  exact hk h _ _ (hp.trans (List.prefix_append _ _)) hst

theorem safe_getLoop (urls : List String) :
    ∀ (fs : List Handle) (K : List Handle → Prog) (H : Handle → Option Post) (L : List Event),
      (∀ fs' H' L', L <+: L' → Safe exitGuard True (K fs') H' L' anyPost) →
        Safe exitGuard True (getLoop urls fs K) H L anyPost := by
  induction urls with
  | nil => exact fun fs K H L hK => hK fs H L (List.prefix_refl _)
  | cons url urls ih =>
    intro fs K H L hK
    exact safe_launch _ [] _ _ H L fun h H' L' hp _ =>
      ih _ K H' L' fun fs' H'' L'' hp' => hK fs' H'' L'' (hp.trans hp')

theorem client_safe {p : Prog} (hc : Client p) :
    ∀ (H : Handle → Option Post) (L : List Event), Safe exitGuard True p H L anyPost := by
  induction hc with
  | ret v => exact fun _ _ _ _ => trivial
  | sleep _ ih => exact fun H L => ih H L
  | async _ _ ihb ihk =>
    exact fun H L => ⟨anyPost, fun _ _ _ _ _ => trivial, fun _ _ _ => trivial, ihb H L,
      fun h _ => ihk h _ L⟩
  | await h _ ih => exact fun H L v L' _ _ => ih v H L'
  | promise _ ih =>
    exact fun H L => ⟨anyPost, fun _ _ _ _ _ => trivial, fun _ _ _ => trivial,
      fun h _ => ih h _ L⟩
  | setValue h v _ ih => exact fun H L => ⟨Or.inr trivial, ih H L⟩
  | callGet url _ ih => exact fun H L => safe_launch _ [] _ _ H L fun h H' L' _ _ => ih h H' L'
  | callPost url args _ ih =>
    exact fun H L => safe_launch _ args _ _ H L fun h H' L' _ _ => ih h H' L'
  | callGetParallel urls _ ih =>
    intro H L L' hp
    refine ⟨fun h => absurd h entry_ne_exit, ?_⟩
    refine safe_getLoop urls [] _ H _ fun fs' H' L'' hp' L3 hp3 => ⟨fun _ => ?_, ih _ H' _⟩
    exact Stored.mono ⟨_, List.mem_append_right _ (List.mem_singleton.2 rfl), rfl, rfl⟩
      (hp'.trans hp3)

theorem entry_lt_exit_of_disciplined {L : List Event} (hd : Disciplined exitGuard L)
    (src : String) (hs : Stored L { source := src, message := "entry" }) :
    index L { source := src, message := "entry" }
      < index L { source := src, message := "exit" } := by
  by_cases hx : Stored L { source := src, message := "exit" }
  · refine index_lt_of_guard hd ?_ hx
    rintro L0 e ⟨h1, h2⟩ hg
    have := hg h2
    rwa [h1] at this
  · exact index_lt_of_stored_of_not_stored hs hx

theorem run_append (s : State) (a b : List Nat) : run s (a ++ b) = run (run s a) b := by
  induction a generalizing s with
  | nil => rfl
  | cons i a ih => exact ih _

theorem step_events_le {s s' : State} {j : Nat} (hs : step s j = some s') :
    s.events <+: s'.events := by
  unfold step at hs
  split at hs
  · split at hs
    all_goals first
      | (simp only [Option.some.injEq] at hs; subst hs; first
          | exact List.prefix_refl _
          | exact List.prefix_append _ _)
      | (split at hs
         · simp only [Option.some.injEq] at hs
           subst hs
           exact List.prefix_refl _
         · exact absurd hs (by simp))
  · exact absurd hs (by simp)

theorem run_events_le (sched : List Nat) :
    ∀ s : State, s.events <+: (run s sched).events := by
  induction sched with
  | nil => exact fun s => List.prefix_refl _
  | cons j sched ih =>
    intro s
    simp only [run]
    cases hst : step s j with
    | none => simpa using ih s
    | some s' => exact (step_events_le hst).trans (by simpa using ih s')

theorem step_other_cell {s s' : State} {i j : Nat} {p : Prog} (hs : step s j = some s')
    (hij : j ≠ i) (hc : s.cells[i]? = some (.running p)) :
    s'.cells[i]? = some (.running p) := by
  have hil : i < s.cells.length := (List.getElem?_eq_some_iff.1 hc).1
  have hset : ∀ c : Cell, (s.cells.set j c)[i]? = some (.running p) := fun c => by
    rw [List.getElem?_set_ne hij]
    exact hc
  have happ : ∀ c cnew : Cell, (s.cells.set j c ++ [cnew])[i]? = some (.running p) :=
    fun c cnew => by
      rw [List.getElem?_append_left (by simpa using hil)]
      exact hset c
  unfold step at hs
  cases hcj : s.cells[j]? with
  | none => simp [hcj] at hs
  | some c =>
    cases c with
    | pending => simp [hcj] at hs
    | ready v => simp [hcj] at hs
    | running q =>
      cases q with
      | ret v =>
        simp only [hcj, Option.some.injEq] at hs
        subst hs
        exact hset _
      | push e k =>
        simp only [hcj, Option.some.injEq] at hs
        subst hs
        exact hset _
      | sleep k =>
        simp only [hcj, Option.some.injEq] at hs
        subst hs
        exact hset _
      | async body k =>
        simp only [hcj, Option.some.injEq] at hs
        subst hs
        exact happ _ _
      | get h k =>
        simp only [hcj] at hs
        cases hch : s.cells[h]? with
        | none => simp [hch] at hs
        | some ch =>
          cases ch with
          | running q => simp [hch] at hs
          | pending => simp [hch] at hs
          | ready v =>
            simp only [hch, Option.some.injEq] at hs
            subst hs
            exact hset _
      | promise k =>
        simp only [hcj, Option.some.injEq] at hs
        subst hs
        exact happ _ _
      | setValue h v k =>
        simp only [hcj] at hs
        cases hch : s.cells[h]? with
        | none => simp [hch] at hs
        | some ch =>
          cases ch with
          | running q => simp [hch] at hs
          | ready w => simp [hch] at hs
          | pending =>
            simp only [hch, Option.some.injEq] at hs
            subst hs
            have hne : h ≠ i := by
              rintro rfl
              rw [hc] at hch
              simp at hch
            simp only
            rw [List.getElem?_set_ne hij, List.getElem?_set_ne hne]
            exact hc

/-- A thread that is about to push an event has pushed it once it has been
scheduled, whatever the other threads did in between. -/
theorem pushed_of_scheduled (sched : List Nat) :
    ∀ {s : State} {i : Nat} {e : Event} {p : Prog},
      s.cells[i]? = some (.running (.push e p)) → i ∈ sched → e ∈ (run s sched).events := by
  induction sched with
  | nil => exact fun _ hi => absurd hi (List.not_mem_nil _)
  | cons j sched ih =>
    intro s i e p hc hi
    simp only [run]
    by_cases hji : j = i
    · subst hji
      have hst : step s j = some ⟨push s.events e, s.cells.set j (.running p)⟩ := by
        simp [step, hc]
      rw [hst]
      exact (run_events_le sched _).subset (by simp [push])
    · have hi' : i ∈ sched := by
        rcases List.mem_cons.1 hi with h | h
        · exact absurd h.symm hji
        · exact h
      cases hst : step s j with
      | none => simpa using ih hc hi'
      | some s' => simpa using ih (step_other_cell hst hji hc) hi'

/-- C4 (P1, entry before exit): take any execution that starts from the empty
log and appends only through `get`, `post` and `get_parallel`, and any point
of it (after `sched1`) where a thread `i` is about to call `get(url)`, with
any continuation `k`. At every later point where the call has returned, that
is once thread `i` has taken its two actions, the push of the entry event and
the launch of the task (neither can block), whatever the other threads did in
between, `index(entry) < index(exit)`. The same for a call `post(url, args)`.
Calls made by `get_parallel` and by launched tasks are calls of this kind. -/
theorem entry_before_exit (main : Prog) (hc : Client main) (sched1 sched2 : List Nat)
    (i : Nat) (url : String) (args : Args) (k : Handle → Prog)
    (hret : 2 ≤ sched2.count i) :
    ((run (init main) sched1).cells[i]? = some (.running (get url k)) →
      index (run (init main) (sched1 ++ sched2)).events
          { source := "get: " ++ url, message := "entry" }
        < index (run (init main) (sched1 ++ sched2)).events
            { source := "get: " ++ url, message := "exit" }) ∧
    ((run (init main) sched1).cells[i]? = some (.running (post url args k)) →
      index (run (init main) (sched1 ++ sched2)).events
          { source := "post: " ++ url, message := "entry" }
        < index (run (init main) (sched1 ++ sched2)).events
            { source := "post: " ++ url, message := "exit" }) := by
  have hd := (@safe_run exitGuard True main anyPost
    (fun _ _ _ _ _ => trivial) (fun _ _ _ => trivial) (client_safe hc _ _)
    (sched1 ++ sched2)).1
  have hi : i ∈ sched2 := List.count_pos_iff.1 (by omega)
  rw [run_append] at hd ⊢
  constructor
  · intro hcall
    exact entry_lt_exit_of_disciplined hd _ ⟨_, pushed_of_scheduled sched2 hcall hi, rfl, rfl⟩
  · intro hcall
    exact entry_lt_exit_of_disciplined hd _ ⟨_, pushed_of_scheduled sched2 hcall hi, rfl, rfl⟩

/-- The example client appends only through `get` and `post`. -/
theorem client_example : Client clientExample :=
  Client.callGet "a" fun h => Client.await h fun _ =>
    Client.callPost "b" _ fun h2 => Client.await h2 fun _ => Client.ret _

set_option maxRecDepth 100000 in
/-- C4 at a concrete execution of the example client: after `get("a")` has
returned and its task has run, and after `post("b", ..)` has returned and its
task has run, both exit events are stored and each entry index is below the
exit index. -/
theorem entry_before_exit_witness :
    (Stored (run (init clientExample) ([] ++ [0, 0, 1, 1, 1])).events
        { source := "get: " ++ "a", message := "exit" } ∧
      index (run (init clientExample) ([] ++ [0, 0, 1, 1, 1])).events
          { source := "get: " ++ "a", message := "entry" }
        < index (run (init clientExample) ([] ++ [0, 0, 1, 1, 1])).events
            { source := "get: " ++ "a", message := "exit" }) ∧
    (Stored (run (init clientExample) ([0, 0, 1, 1, 1, 0] ++ [0, 0, 2, 2, 2])).events
        { source := "post: " ++ "b", message := "exit" } ∧
      index (run (init clientExample) ([0, 0, 1, 1, 1, 0] ++ [0, 0, 2, 2, 2])).events
          { source := "post: " ++ "b", message := "entry" }
        < index (run (init clientExample) ([0, 0, 1, 1, 1, 0] ++ [0, 0, 2, 2, 2])).events
            { source := "post: " ++ "b", message := "exit" }) :=
  ⟨⟨by decide,
    (entry_before_exit clientExample client_example [] [0, 0, 1, 1, 1] 0 "a" []
      clientAfterGet (by decide)).1 rfl⟩,
   ⟨by decide,
    (entry_before_exit clientExample client_example [0, 0, 1, 1, 1, 0] [0, 0, 2, 2, 2] 0 "b"
      [("text", "results for " ++ "a")] clientAfterPost (by decide)).2 rfl⟩⟩

/-! ### The dependent chain -/

theorem get_ne_post (u v : String) : "get: " ++ u ≠ "post: " ++ v := by
  intro h
  have := congrArg String.data h
  simp [String.data_append] at this

theorem exit_ne_entry : ("exit" : String) ≠ "entry" := by decide

theorem chainPost_mono (v : String) : (chainPost v).Mono :=
  fun _ _ _ hp h => Stored.mono h hp

theorem getPost_mono (u : String) : (getPost u).Mono :=
  fun _ _ _ hp h => ⟨h.1, Stored.mono h.2 hp⟩

theorem chain_safe (u v : String) :
    Safe (chainGuard u v) False (chain u v) (fun _ => none) [] (chainPost v) := by
  intro L1 _
  refine ⟨fun h => absurd h.1 (get_ne_post u v), getPost u, getPost_mono u, False.elim, ?_, ?_⟩
  · -- the task of `get`
    intro L2 _
    refine ⟨fun h => absurd h.2 exit_ne_entry, fun L3 hp3 => ⟨rfl, ?_⟩⟩
    exact stored_of_concat_le hp3 _ rfl rfl
  · intro google _
    refine ⟨chainPost v, chainPost_mono v, False.elim, ?_, ?_⟩
    · -- the task that waits for `get` and calls `post`
      intro w L2 _ hw
      obtain ⟨rfl, hx⟩ := hw (getPost u) (Function.update_same _ _ _)
      intro L3 hp3
      refine ⟨fun _ => ⟨hx.mono hp3, rfl⟩, anyPost, fun _ _ _ _ _ => trivial, False.elim, ?_, ?_⟩
      · intro L4 _
        exact ⟨fun h => absurd h.2 exit_ne_entry, fun _ _ => trivial⟩
      · intro h _ L4 hp4
        exact stored_of_concat_le hp4 _ rfl rfl
    · intro outer _ w L2 _ hw L3 hp3
      exact (hw (chainPost v) (Function.update_same _ _ _)).mono hp3

/-- The chain can complete, whatever the urls: the schedule that runs
`get(u)` and its task, then the chain task, then the main thread. -/
theorem chain_completes (u v : String) :
    (run (init (chain u v)) [0, 0, 0, 1, 1, 1, 2, 2, 2, 2, 0, 0]).result = some (.fut 3) := by
  simp [run, step, init, chain, AsyncTest.get, post, getTask, postTask, State.result]

/-- C5 (P2, chain ordering): under every schedule, once the main thread has
retrieved the result of the chain task, the exit event of `get(u)` has a
smaller index than the entry event of `post(v, ..)`. -/
theorem chain_order (u v : String) (sched : List Nat) (r : Val)
    (hr : (run (init (chain u v)) sched).result = some r) :
    index (run (init (chain u v)) sched).events { source := "get: " ++ u, message := "exit" }
      < index (run (init (chain u v)) sched).events
          { source := "post: " ++ v, message := "entry" } := by
  obtain ⟨hd, hq⟩ := safe_run (chainPost_mono v) False.elim (chain_safe u v) sched
  exact index_lt_of_guard hd (fun L0 e he hg => (hg he).1) (hq r hr)

/-- C5 at the urls of the test, on a schedule that completes the chain. -/
theorem chain_order_witness :
    index (run (init (chain "http://google.com" "http://spell_checker.com"))
          [0, 0, 0, 1, 1, 1, 2, 2, 2, 2, 0, 0]).events
        { source := "get: " ++ "http://google.com", message := "exit" }
      < index (run (init (chain "http://google.com" "http://spell_checker.com"))
          [0, 0, 0, 1, 1, 1, 2, 2, 2, 2, 0, 0]).events
        { source := "post: " ++ "http://spell_checker.com", message := "entry" } :=
  chain_order "http://google.com" "http://spell_checker.com"
    [0, 0, 0, 1, 1, 1, 2, 2, 2, 2, 0, 0] (.fut 3) (by decide)

theorem args_at_singleton (k v : String) : Args.at [(k, v)] k = .ok v := by
  simp [Args.at, List.lookup]

/-- C6 (P3, argument propagation): under every schedule, once the main thread
has retrieved the result of the chain task, `find` of the entry event of
`post(v, ..)` succeeds, and the arguments of the event it returns map `"text"`
to `"results for " + u`, the string the task of `get(u)` returns. -/
theorem chain_arguments (u v : String) (sched : List Nat) (r : Val)
    (hr : (run (init (chain u v)) sched).result = some r) :
    ∃ x, find (run (init (chain u v)) sched).events
          { source := "post: " ++ v, message := "entry" } = .ok x ∧
      x.arguments.at "text" = .ok ("results for " ++ u) := by
  obtain ⟨hd, hq⟩ := safe_run (chainPost_mono v) False.elim (chain_safe u v) sched
  have hs := hq r hr
  refine ⟨_, find_eq_ok hs, ?_⟩
  have hlt := (stdFind_lt_iff _ _).2 hs
  have hm := stdFind_get _ _ hlt
  have hg := hd _ _ (take_concat_get_le hlt)
  rw [(hg hm).2]
  exact args_at_singleton _ _

/-- C6 at the urls of the test: the chain has run, and the entry event that
`find` returns carries `"results for http://google.com"` under `"text"`. -/
theorem chain_arguments_witness :
    ∃ x, find (run (init (chain "http://google.com" "http://spell_checker.com"))
            [0, 0, 0, 1, 1, 1, 2, 2, 2, 2, 0, 0, 3, 3, 3]).events
          { source := "post: " ++ "http://spell_checker.com", message := "entry" } = .ok x ∧
      x.arguments.at "text" = .ok ("results for " ++ "http://google.com") :=
  chain_arguments "http://google.com" "http://spell_checker.com"
    [0, 0, 0, 1, 1, 1, 2, 2, 2, 2, 0, 0, 3, 3, 3] (.fut 3) (by decide)

/-! ### The deferred input -/

theorem input_ne_received (s : String) : "input defined" ≠ "task: n received: " ++ s := by
  intro h
  have := congrArg String.data h
  simp [String.data_append] at this

theorem input_ne_known (s : String) : "input defined" ≠ "\x7breturn value known: " ++ s := by
  intro h
  have := congrArg String.data h
  simp [String.data_append] at this

theorem received_ne_known (s t : String) :
    "task: n received: " ++ s ≠ "\x7breturn value known: " ++ t := by
  intro h
  have := congrArg String.data h
  simp [String.data_append] at this

theorem returns_ne_received (s t : String) :
    "task returns " ++ s ≠ "task: n received: " ++ t := by
  intro h
  have := congrArg String.data h
  simp [String.data_append] at this

theorem returns_ne_known (s t : String) :
    "task returns " ++ s ≠ "\x7breturn value known: " ++ t := by
  intro h
  have := congrArg String.data h
  simp [String.data_append] at this

theorem safe_sleeps {G : List Event → Event → Prop} {U : Prop} (m : Nat) {k : Prog}
    {H : Handle → Option Post} {L : List Event} {Q : Post} (h : Safe G U k H L Q) :
    Safe G U (sleeps m k) H L Q := by
  induction m with
  | zero => exact h
  | succ m ih => exact ih

theorem task_safe (n : Nat) (fut : Handle) (H : Handle → Option Post) (L : List Event)
    (hf : H fut = some (inputPost n)) :
    Safe (delayedGuard n) False (task fut) H L (taskPost n) := by
  intro w L1 _ hw
  obtain ⟨rfl, hin⟩ := hw _ hf
  intro L2 hp2
  refine ⟨⟨fun _ => hin.mono hp2, fun h => absurd h.1 (received_ne_known _ _)⟩, ?_⟩
  refine safe_sleeps _ ?_
  intro L3 hp3
  refine ⟨⟨fun h => absurd h.1 (returns_ne_received _ _),
    fun h => absurd h.1 (returns_ne_known _ _)⟩, fun L4 hp4 => ⟨rfl, ?_, ?_⟩⟩
  · exact (stored_of_concat_le hp3 _ rfl rfl).mono ((List.prefix_append _ _).trans hp4)
  · exact stored_of_concat_le hp4 _ rfl rfl

theorem delayed_safe (n : Nat) :
    Safe (delayedGuard n) False (delayed n) (fun _ => none) [] (delayedPost n) := by
  refine ⟨inputPost n, fun _ _ _ hp h => ⟨h.1, h.2.mono hp⟩, False.elim, fun fut _ => ?_⟩
  refine ⟨taskPost n, fun _ _ _ hp h => ⟨h.1, h.2.1.mono hp, h.2.2.mono hp⟩, False.elim,
    task_safe n fut _ _ (Function.update_same _ _ _), fun result_fut hfr => ?_⟩
  have hne : result_fut ≠ fut := by
    rintro rfl
    simp at hfr
  refine ⟨anyPost, fun _ _ _ _ _ => trivial, False.elim, ?_, fun setter hfs => ?_⟩
  · -- the task that defines the input
    intro L1 _
    refine ⟨⟨fun h => absurd h.1 (input_ne_received _), fun h => absurd h.1 (input_ne_known _)⟩,
      Or.inl ⟨inputPost n, ?_, fun L2 hp2 => ⟨rfl, stored_of_concat_le hp2 _ rfl rfl⟩⟩,
      fun _ _ => trivial⟩
    rw [Function.update_noteq hne.symm, Function.update_same]
  · have hne2 : setter ≠ result_fut := by
      rintro rfl
      simp at hfs
    intro _ L1 _ _ w L2 _ hw
    obtain ⟨rfl, hrec, hret⟩ := hw (taskPost n)
      (by rw [Function.update_noteq hne2.symm, Function.update_same])
    intro L3 hp3
    refine ⟨⟨fun h => absurd h.1.symm (received_ne_known _ _), fun _ => hret.mono hp3⟩,
      fun L4 hp4 => ⟨rfl, ?_, stored_of_concat_le hp4 _ rfl rfl⟩⟩
    exact hrec.mono (hp3.trans ((List.prefix_append _ _).trans hp4))

/-- C7 (P4, deferred-input ordering): for every input `n ≥ 0` and under every
schedule, once the main thread has logged "return value known" and reached
the assertions, `result` equals `n`, "input defined" has a smaller index than
"task: n received: n", and "task returns n" has a smaller index than
"{return value known: n". -/
theorem delayed_order (n : Nat) (sched : List Nat) (r : Val)
    (hr : (run (init (delayed n)) sched).result = some r) :
    r = .int n ∧
    index (run (init (delayed n)) sched).events { source := "input defined", message := "" }
      < index (run (init (delayed n)) sched).events
          { source := "task: n received: " ++ to_string n, message := "" } ∧
    index (run (init (delayed n)) sched).events
        { source := "task returns " ++ to_string n, message := "" }
      < index (run (init (delayed n)) sched).events
          { source := "\x7breturn value known: " ++ to_string n, message := "" } := by
  obtain ⟨hd, hq⟩ := @safe_run (delayedGuard n) False (delayed n) (delayedPost n)
    (fun _ _ _ hp h => ⟨h.1, h.2.1.mono hp, h.2.2.mono hp⟩) False.elim (delayed_safe n) sched
  obtain ⟨h1, h2, h3⟩ := hq r hr
  exact ⟨h1, index_lt_of_guard hd (fun L0 e he hg => hg.1 he) h2,
    index_lt_of_guard hd (fun L0 e he hg => hg.2 he) h3⟩

set_option maxRecDepth 100000 in
/-- C7 at the input of the test, `n = 10`, on a schedule that completes the
test. -/
theorem delayed_order_witness :
    Val.int 10 = .int (10 : Nat) ∧
    index (run (init (delayed 10))
        [0, 0, 0, 3, 3, 3, 0, 2, 2, 2, 2, 2, 2, 2, 2, 2, 2, 2, 2, 2, 2, 0, 0, 0]).events
          { source := "input defined", message := "" }
      < index (run (init (delayed 10))
        [0, 0, 0, 3, 3, 3, 0, 2, 2, 2, 2, 2, 2, 2, 2, 2, 2, 2, 2, 2, 2, 0, 0, 0]).events
          { source := "task: n received: " ++ to_string (10 : Nat), message := "" } ∧
    index (run (init (delayed 10))
        [0, 0, 0, 3, 3, 3, 0, 2, 2, 2, 2, 2, 2, 2, 2, 2, 2, 2, 2, 2, 2, 0, 0, 0]).events
        { source := "task returns " ++ to_string (10 : Nat), message := "" }
      < index (run (init (delayed 10))
        [0, 0, 0, 3, 3, 3, 0, 2, 2, 2, 2, 2, 2, 2, 2, 2, 2, 2, 2, 2, 2, 0, 0, 0]).events
          { source := "\x7breturn value known: " ++ to_string (10 : Nat), message := "" } :=
  delayed_order 10 _ (.int 10) (by decide)

theorem run_sleeps (L : List Event) (c0 c1 c3 : Cell) (k : Prog) (m : Nat) :
    run { events := L, cells := [c0, c1, .running (sleeps m k), c3] } (List.replicate m 2)
      = { events := L, cells := [c0, c1, .running k, c3] } := by
  induction m with
  | zero => rfl
  | succ m ih =>
    simp only [List.replicate, run, step, sleeps]
    simpa using ih

/-- The deferred-input test can complete, whatever the input: the schedule
that defines the input first and then lets the task and the main thread
run. -/
theorem delayed_completes (n : Nat) :
    (run (init (delayed n))
      ([0, 0, 0, 3, 3, 3, 0, 2, 2] ++ List.replicate n 2 ++ [2, 2, 0, 0, 0])).result
      = some (.int n) := by
  rw [run_append, run_append]
  have h1 : run (init (delayed n)) [0, 0, 0, 3, 3, 3, 0, 2, 2] =
      { events := [{ source := "input defined", message := "" },
          { source := "task: n received: " ++ to_string n, message := "" }],
        cells := [.running (.get 2 fun result =>
            .push { source := "\x7breturn value known: " ++ to_string result.toInt,
                    message := "" } <| .ret result),
          .ready (.int n),
          .running (sleeps n <|
            .push { source := "task returns " ++ to_string n, message := "" } <|
              .ret (.int n)),
          .ready .unit] } := by
    simp [run, step, init, delayed, task, AsyncTest.push, Val.toInt]
  rw [h1, run_sleeps]
  simp [run, step, State.result, AsyncTest.push, Val.toInt]

/-! ### The fan-out -/

theorem get_ne_get_parallel (u : String) : "get: " ++ u ≠ "get_parallel: " := by
  intro h
  have := congrArg String.data h
  simp [String.data_append] at this

theorem ownPart_concat_exit (L : List Event) (u : String) :
    ownPart (L ++ [{ source := "get: " ++ u, message := "exit" }]) = ownPart L := by
  simp [ownPart, get_ne_get_parallel]

theorem ownPart_concat_entry (L : List Event) (src : String) :
    ownPart (L ++ [{ source := src, message := "entry" }])
      = ownPart L ++ [{ source := src, message := "entry" }] := by
  simp [ownPart]

theorem ownPart_concat_end (L : List Event) :
    ownPart (L ++ [{ source := "get_parallel: ", message := "exit" }])
      = ownPart L ++ [{ source := "get_parallel: ", message := "exit" }] := by
  simp [ownPart]

theorem TasksOf.set_task {urls : List String} {ws : List Cell} (ht : TasksOf urls ws) {j : Nat}
    {u : String} (hu : urls[j]? = some u) {c' : Cell} (hc : TaskOf u c') :
    TasksOf urls (ws.set j c') := by
  refine ⟨by simpa using ht.1, fun i v c hv hi => ?_⟩
  rw [List.getElem?_set] at hi
  by_cases hji : j = i
  · subst hji
    rw [if_pos rfl] at hi
    split at hi
    · simp only [Option.some.injEq] at hi
      rw [hu] at hv
      simp only [Option.some.injEq] at hv
      subst hi hv
      exact hc
    · exact absurd hi (by simp)
  · rw [if_neg hji] at hi
    exact ht.2 i v c hv hi

theorem TasksOf.launch_task {urls : List String} {ws : List Cell} (ht : TasksOf urls ws)
    (u : String) : TasksOf (urls ++ [u]) (ws ++ [.running (getTask u)]) := by
  refine ⟨by simp [ht.1], fun j v c hv hc => ?_⟩
  by_cases hj : j < urls.length
  · rw [List.getElem?_append_left hj] at hv
    rw [List.getElem?_append_left (by rw [ht.1]; exact hj)] at hc
    exact ht.2 j v c hv hc
  · have hle : urls.length ≤ j := Nat.le_of_not_lt hj
    rw [List.getElem?_append_right hle] at hv
    rw [List.getElem?_append_right (by rw [ht.1]; exact hle), ht.1] at hc
    cases hk : j - urls.length with
    | zero =>
      simp only [hk, List.getElem?_cons_zero, Option.some.injEq] at hv hc
      subst hv hc
      exact Or.inl rfl
    | succ k => simp [hk] at hv

theorem task_step {urls : List String} {ws : List Cell} {c0 : Cell} {L : List Event} {j : Nat}
    {s' : State} (ht : TasksOf urls ws)
    (hs : step { events := L, cells := c0 :: ws } (j + 1) = some s') :
    ∃ ws' L', s' = { events := L', cells := c0 :: ws' } ∧ TasksOf urls ws' ∧
      ownPart L' = ownPart L := by
  unfold step at hs
  simp only [List.getElem?_cons_succ] at hs
  cases hc : ws[j]? with
  | none => simp [hc] at hs
  | some c =>
    have hj : j < ws.length := (List.getElem?_eq_some_iff.1 hc).1
    obtain ⟨u, hu⟩ : ∃ u, urls[j]? = some u :=
      ⟨_, List.getElem?_eq_getElem (by rw [← ht.1]; exact hj)⟩
    rcases ht.2 j u c hu hc with rfl | rfl | rfl | rfl
    · simp only [hc, getTask, Option.some.injEq] at hs
      subst hs
      exact ⟨_, L, by simp, ht.set_task hu (Or.inr (Or.inl rfl)), rfl⟩
    · simp only [hc, Option.some.injEq] at hs
      subst hs
      exact ⟨_, _, by simp [AsyncTest.push], ht.set_task hu (Or.inr (Or.inr (Or.inl rfl))),
        ownPart_concat_exit L u⟩
    · simp only [hc, Option.some.injEq] at hs
      subst hs
      exact ⟨_, L, by simp, ht.set_task hu (Or.inr (Or.inr (Or.inr rfl))), rfl⟩
    · simp [hc] at hs

theorem FanOut.step_kept {urls : List String} {s s' : State} (hf : FanOut urls s) {i : Nat}
    (hs : step s i = some s') : FanOut urls s' := by
  cases hf with
  | start =>
    cases i with
    | zero =>
      simp only [AsyncTest.step, init, get_parallel, List.getElem?_cons_zero,
        Option.some.injEq] at hs
      subst hs
      exact FanOut.loop [] urls [] _ rfl ⟨rfl, fun j u c hu => by simp at hu⟩ rfl
    | succ j => simp [AsyncTest.step, init] at hs
  | loop done rest ws L hu ht ho =>
    cases i with
    | zero =>
      cases rest with
      | nil =>
        simp only [AsyncTest.step, getLoop, fanOutEnd, List.getElem?_cons_zero,
          Option.some.injEq] at hs
        subst hs
        simp only [List.append_nil] at hu
        subst hu
        refine FanOut.last ws _ ht ?_
        simp [AsyncTest.push, ownPart_concat_end, ho, fanOutLog]
      | cons u rest =>
        simp only [AsyncTest.step, getLoop, AsyncTest.get, List.getElem?_cons_zero,
          Option.some.injEq] at hs
        subst hs
        refine FanOut.launch done u rest ws _ hu ht ?_
        simp [AsyncTest.push, ownPart_concat_entry, ho]
    | succ j =>
      obtain ⟨ws', L', rfl, ht', ho'⟩ := task_step ht hs
      exact FanOut.loop done rest ws' L' hu ht' (ho'.trans ho)
  | launch done u rest ws L hu ht ho =>
    cases i with
    | zero =>
      simp only [AsyncTest.step, List.getElem?_cons_zero, Option.some.injEq] at hs
      subst hs
      have hlen : (Cell.running (.async (getTask u) fun h =>
          getLoop rest (List.range' 1 done.length ++ [h]) fanOutEnd) :: ws).length
            = 1 + 1 * done.length := by
        simp [ht.1]; omega
      simp only [hlen, ← List.range'_concat, List.set_cons_zero, List.cons_append]
      have := @FanOut.loop urls (done ++ [u]) rest (ws ++ [.running (getTask u)]) L
        (by simp [hu]) (ht.launch_task u) ho
      simpa using this
    | succ j =>
      obtain ⟨ws', L', rfl, ht', ho'⟩ := task_step ht hs
      exact FanOut.launch done u rest ws' L' hu ht' (ho'.trans ho)
  | last ws L ht ho =>
    cases i with
    | zero =>
      simp only [AsyncTest.step, List.getElem?_cons_zero, Option.some.injEq] at hs
      subst hs
      exact FanOut.returned ws L ht ho
    | succ j =>
      obtain ⟨ws', L', rfl, ht', ho'⟩ := task_step ht hs
      exact FanOut.last ws' L' ht' (ho'.trans ho)
  | returned ws L ht ho =>
    cases i with
    | zero => simp [AsyncTest.step] at hs
    | succ j =>
      obtain ⟨ws', L', rfl, ht', ho'⟩ := task_step ht hs
      exact FanOut.returned ws' L' ht' (ho'.trans ho)

theorem FanOut.run_kept {urls : List String} (sched : List Nat) :
    ∀ {s : State}, FanOut urls s → FanOut urls (AsyncTest.run s sched) := by
  induction sched with
  | nil => exact fun h => h
  | cons i sched ih =>
    intro s hf
    simp only [AsyncTest.run]
    cases hst : AsyncTest.step s i with
    | none => simpa using ih hf
    | some s' => simpa using ih (hf.step_kept hst)

theorem fanOutLog_init (done rest : List String) :
    { source := "get_parallel: ", message := "entry" } ::
        done.map (fun u => ({ source := "get: " ++ u, message := "entry" } : Event))
      <+: fanOutLog (done ++ rest) := by
  refine ⟨rest.map (fun u => { source := "get: " ++ u, message := "entry" }) ++
    [{ source := "get_parallel: ", message := "exit" }], ?_⟩
  simp [fanOutLog]

theorem FanOut.spec {urls : List String} {s : State} (hf : FanOut urls s) :
    ownPart s.events <+: fanOutLog urls ∧
      ∀ r, s.result = some r →
        r = .futs (List.range' 1 urls.length) ∧ ownPart s.events = fanOutLog urls ∧
          TasksOf urls s.cells.tail := by
  cases hf with
  | start => exact ⟨⟨_, rfl⟩, fun r hr => by simp [State.result, init] at hr⟩
  | loop done rest ws L hu ht ho =>
    subst hu
    exact ⟨ho ▸ fanOutLog_init done rest, fun r hr => by simp [State.result] at hr⟩
  | launch done u rest ws L hu ht ho =>
    subst hu
    refine ⟨?_, fun r hr => by simp [State.result] at hr⟩
    have := fanOutLog_init (done ++ [u]) rest
    rw [ho]
    simpa using this
  | last ws L ht ho => exact ⟨ho ▸ List.prefix_refl _, fun r hr => by simp [State.result] at hr⟩
  | returned ws L ht ho =>
    refine ⟨ho ▸ List.prefix_refl _, fun r hr => ?_⟩
    simp only [State.result, List.getElem?_cons_zero, Option.some.injEq] at hr
    exact ⟨hr.symm, ho, ht⟩

theorem run_getLoop (rest : List String) :
    ∀ (ws : List Cell) (L : List Event) (fs : List Handle),
      run ⟨L, .running (getLoop rest fs fanOutEnd) :: ws⟩ (List.replicate (2 * rest.length) 0)
        = ⟨L ++ rest.map (fun u => { source := "get: " ++ u, message := "entry" }),
            .running (fanOutEnd (fs ++ List.range' (ws.length + 1) rest.length)) ::
              (ws ++ rest.map fun u => .running (getTask u))⟩ := by
  induction rest with
  | nil =>
    intro ws L fs
    simp [run, getLoop]
  | cons u rest ih =>
    intro ws L fs
    have h2 : 2 * (u :: rest).length = 2 * rest.length + 1 + 1 := by simp; omega
    rw [h2, List.replicate_succ, List.replicate_succ]
    simp only [run, step, getLoop, AsyncTest.get, List.getElem?_cons_zero, Option.getD_some,
      List.set_cons_zero, List.cons_append, AsyncTest.push, List.length_cons]
    rw [ih]
    simp [List.range'_succ]

theorem run_get_parallel (urls : List String) :
    run (init (get_parallel urls .ret)) (List.replicate (2 * urls.length + 3) 0)
      = ⟨fanOutLog urls, .ready (.futs (List.range' 1 urls.length)) ::
          urls.map fun u => .running (getTask u)⟩ := by
  have h3 : List.replicate (2 * urls.length + 3) 0
      = 0 :: (List.replicate (2 * urls.length) 0 ++ [0, 0]) := by
    rw [show 2 * urls.length + 3 = (2 * urls.length + 2) + 1 from rfl, List.replicate_succ,
      List.replicate_add]
    rfl
  have hg : get_parallel urls .ret
      = .push { source := "get_parallel: ", message := "entry" }
          (getLoop urls [] fanOutEnd) := rfl
  rw [h3, hg]
  simp only [run, step, init, List.getElem?_cons_zero, Option.getD_some,
    List.set_cons_zero, AsyncTest.push, List.nil_append]
  rw [run_append, run_getLoop]
  simp [run, step, fanOutEnd, fanOutLog, AsyncTest.push]

theorem fanOutLog_no_exit (urls : List String) (u : String) :
    ¬ Stored (fanOutLog urls) { source := "get: " ++ u, message := "exit" } := by
  rintro ⟨x, hx, h1, h2⟩
  simp only [fanOutLog, List.cons_append, List.mem_cons, List.mem_append, List.mem_map,
    List.mem_singleton, List.not_mem_nil, or_false] at hx
  rcases hx with rfl | ⟨w, _, rfl⟩ | rfl
  · exact absurd h2 entry_ne_exit
  · exact absurd h2 entry_ne_exit
  · exact absurd h1.symm (get_ne_get_parallel u)

/-- C8 (fan-out is non-blocking): under every schedule the events
`get_parallel(urls)` pushes itself form a prefix of: its entry event, the
entry event of `get(u)` for every url in input order, its exit event; once it
has returned, they are exactly that list, the value returned is one future per
url, and the futures are, in input order, those of the tasks of the urls.
On the schedule that runs the main thread alone `get_parallel` returns after
`2 * n + 3` actions, the log is exactly that list, so no exit event of a
`get` is stored, and no task has started. -/
theorem get_parallel_fan_out (urls : List String) :
    (∀ sched : List Nat,
      ownPart (run (init (get_parallel urls .ret)) sched).events <+: fanOutLog urls ∧
      ∀ r, (run (init (get_parallel urls .ret)) sched).result = some r →
        r = .futs (List.range' 1 urls.length) ∧
        ownPart (run (init (get_parallel urls .ret)) sched).events = fanOutLog urls ∧
        TasksOf urls (run (init (get_parallel urls .ret)) sched).cells.tail) ∧
    (run (init (get_parallel urls .ret)) (List.replicate (2 * urls.length + 3) 0)).result
      = some (.futs (List.range' 1 urls.length)) ∧
    (run (init (get_parallel urls .ret)) (List.replicate (2 * urls.length + 3) 0)).events
      = fanOutLog urls ∧
    (∀ u, ¬ Stored
      (run (init (get_parallel urls .ret)) (List.replicate (2 * urls.length + 3) 0)).events
      { source := "get: " ++ u, message := "exit" }) ∧
    (run (init (get_parallel urls .ret)) (List.replicate (2 * urls.length + 3) 0)).cells.tail
      = urls.map (fun u => .running (getTask u)) := by
  refine ⟨fun sched => (FanOut.run_kept sched FanOut.start).spec, ?_, ?_, ?_, ?_⟩
  · rw [run_get_parallel]
    simp [State.result]
  · rw [run_get_parallel]
  · intro u
    rw [run_get_parallel]
    exact fanOutLog_no_exit urls u
  · rw [run_get_parallel]
    rfl

end AsyncTest
